import Mathlib

/-!
Shallow embedding of the checkpointing / graph bookkeeping core of the
`burn` autodiff crate, together with proofs about its specified behavior.

Source files embedded:
* `src/burn-autodiff/src/checkpoint/base.rs` — `RetroForwards`, `InnerStates`
  (the State Store), `NodeTree`, `Checkpoint` (the recomputation engine).
* `src/burn-autodiff/src/graph/base.rs` — `Graph` (backward-step registry with
  structurally shared storage), `CheckpointingActions`, merging and draining.

Modelling conventions:
* `NodeID` is `Nat` (an opaque, totally ordered, hashable identifier).
* Rust `HashMap` is modelled as an association list `List (Nat × α)` with
  replace-in-place insertion, so entry counts (`len`) and lookup semantics
  match; hash order is irrelevant to every embedded operation.
* Type-erased boxed values (`Box<dyn Any + Send + Sync>`) are modelled as a
  pair of a runtime type tag and a payload (`BoxedAny`); `downcast_ref::<T>`
  succeeds exactly when the stored tag equals the requested tag.
* Rust panics (`unwrap` on `None`, explicit `panic!`) are modelled with
  `Except Panic`; a panic aborts the whole call chain, as in Rust.
* `usize` subtraction `n - 1` is modelled with 64-bit wraparound
  (release-mode semantics), via `usizeSub1`.
* Divergence of the recursive topological sort (possible only on a cyclic
  node-parent map) is modelled with a fuel parameter; exhausted fuel is the
  distinguished outcome `Panic.fuel`, never confused with a Rust panic.
-/

/-- Outcome of a Rust panic (or, for `Panic.fuel`, of non-termination of the
unbounded recursion, which the embedding bounds with fuel). -/
inductive Panic where
  /-- `Option::unwrap` called on `None`. -/
  | unwrapNone
  /-- An explicit `panic!` with a literal message. -/
  | msg (s : String)
  /-- The fuel of the embedding ran out (the Rust recursion would not have
  returned on such an input). -/
  | fuel
deriving DecidableEq

/-- Model of `Box<dyn Any + Send + Sync>`: a runtime type tag plus a payload.
`Clone` on the payload is the identity, values being pure data here. -/
structure BoxedAny where
  ty : Nat
  val : Nat
deriving DecidableEq

/-- Model of `downcast_ref::<T>` followed by `clone`: succeeds exactly when
the runtime type tag matches the requested tag `T`. -/
def BoxedAny.downcast (T : Nat) (b : BoxedAny) : Option Nat :=
  if b.ty = T then some b.val else none

/-- `State` from `checkpoint/state.rs` (the variants and fields are fixed by
the pattern matches in `checkpoint/base.rs` lines 62–72 and 150–168). -/
inductive State where
  /-- No stored value; `n_required` counts the expected future reads. -/
  | Recompute (n_required : Nat)
  /-- A stored, type-erased value plus the same demand counter. -/
  | Computed (state_content : BoxedAny) (n_required : Nat)
deriving DecidableEq

/-- Modelled from the spec: `State::n_required` lives in
`checkpoint/state.rs`, which is not under `src/`; per spec §3 both variants
carry the same demand counter, which this accessor returns. -/
def State.n_required : State → Nat
  | .Recompute n => n
  | .Computed _ n => n

/-- Modelled from the spec: `State::get_state_content` lives in
`checkpoint/state.rs`, which is not under `src/`; per spec §3 a `Recompute`
state has no stored value (so extracting its content is a fatal error,
here `none`), while `Computed` yields its stored type-erased value. -/
def State.get_state_content : State → Option BoxedAny
  | .Recompute _ => none
  | .Computed c _ => some c

/-- 64-bit wrapping decrement, the release-mode meaning of `usize - 1`.
For `1 ≤ n < 2 ^ 64` it equals `n - 1`. -/
def usizeSub1 (n : Nat) : Nat := (n + (2 ^ 64 - 1)) % 2 ^ 64

/-! ### Association-list model of `HashMap<NodeID, _>` -/

/-- `HashMap::get`: first (unique, under the map invariant) entry for a key. -/
def hmGet {α : Type} : List (Nat × α) → Nat → Option α
  | [], _ => none
  | (k', v') :: t, k => if k' = k then some v' else hmGet t k

/-- `HashMap::insert`: replace the entry in place when the key is present,
otherwise add a new entry. -/
def hmInsert {α : Type} : List (Nat × α) → Nat → α → List (Nat × α)
  | [], k, v => [(k, v)]
  | (k', v') :: t, k, v =>
    if k' = k then (k, v) :: t else (k', v') :: hmInsert t k v

/-- `HashMap::remove` (dropping the returned value): delete the entry for a
key, if any. -/
def hmRemove {α : Type} : List (Nat × α) → Nat → List (Nat × α)
  | [], _ => []
  | (k', v') :: t, k => if k' = k then t else (k', v') :: hmRemove t k

/-- `HashMap::extend` (as used by `Graph::merge_different`): insert every
entry of the second map into the first, in order. -/
def hmExtend {α : Type} (m₁ m₂ : List (Nat × α)) : List (Nat × α) :=
  m₂.foldl (fun m p => hmInsert m p.1 p.2) m₁

/-- Keys of a map, in storage order. -/
def hmKeys {α : Type} (m : List (Nat × α)) : List Nat := m.map Prod.fst

theorem hmGet_insert_self {α : Type} (m : List (Nat × α)) (k : Nat) (v : α) :
    hmGet (hmInsert m k v) k = some v := by
  induction m with
  | nil => simp [hmGet, hmInsert]
  | cons p t ih =>
    obtain ⟨k', v'⟩ := p
    by_cases h : k' = k
    · simp [hmInsert, h, hmGet]
    · simp [hmInsert, h, hmGet, ih]

theorem hmGet_insert_ne {α : Type} (m : List (Nat × α)) (k j : Nat) (v : α)
    (h : j ≠ k) : hmGet (hmInsert m k v) j = hmGet m j := by
  have h' : k ≠ j := Ne.symm h
  induction m with
  | nil => simp [hmGet, hmInsert, h']
  | cons p t ih =>
    obtain ⟨k', v'⟩ := p
    by_cases hk : k' = k
    · subst hk
      simp [hmInsert, hmGet, h']
    · simp [hmInsert, hk, hmGet, ih]

theorem hmGet_not_mem {α : Type} (m : List (Nat × α)) (k : Nat)
    (h : k ∉ hmKeys m) : hmGet m k = none := by
  induction m with
  | nil => rfl
  | cons p t ih =>
    obtain ⟨k', v'⟩ := p
    simp only [hmKeys, List.map_cons, List.mem_cons] at h
    push_neg at h
    simp [hmGet, Ne.symm h.1, ih h.2]

theorem hmGet_remove_self {α : Type} (m : List (Nat × α)) (k : Nat)
    (hnd : (hmKeys m).Nodup) : hmGet (hmRemove m k) k = none := by
  induction m with
  | nil => rfl
  | cons p t ih =>
    obtain ⟨k', v'⟩ := p
    simp only [hmKeys, List.map_cons, List.nodup_cons] at hnd
    by_cases h : k' = k
    · subst h
      simp only [hmRemove, if_pos rfl]
      exact hmGet_not_mem t k' hnd.1
    · simp only [hmRemove, if_neg h, hmGet, if_neg h]
      exact ih hnd.2

theorem hmGet_remove_ne {α : Type} (m : List (Nat × α)) (k j : Nat)
    (h : j ≠ k) : hmGet (hmRemove m k) j = hmGet m j := by
  have h' : k ≠ j := Ne.symm h
  induction m with
  | nil => simp [hmRemove]
  | cons p t ih =>
    obtain ⟨k', v'⟩ := p
    by_cases hk : k' = k
    · subst hk
      simp [hmRemove, hmGet, h']
    · simp [hmRemove, hk, hmGet, ih]

/-! ### The State Store: `InnerStates` -/

/-- `InnerStates`: links `NodeID`s to their current `State`
(`checkpoint/base.rs` lines 35–39). -/
abbrev InnerStates := List (Nat × State)

/-- `InnerStates::get_owned_and_downcasted::<T>` (`checkpoint/base.rs` lines
45–79): remove the entry (`unwrap` panics when absent), decrement its
required-count, downcast-and-clone its content (panics for a `Recompute`
state, which has no content, and on a type-tag mismatch), re-insert an
equivalent entry when the decremented count is still positive, and return
the extracted value. -/
def get_owned_and_downcasted (T : Nat) (s : InnerStates) (node_id : Nat) :
    Except Panic (Nat × InnerStates) :=
  match hmGet s node_id with
  | none => .error .unwrapNone
  | some state =>
    let s₁ := hmRemove s node_id
    let remaining_n_required := usizeSub1 state.n_required
    match state.get_state_content with
    | none => .error (.msg "A recompute state has no content")
    | some content =>
      match content.downcast T with
      | none => .error .unwrapNone
      | some downcasted =>
        let s₂ :=
          if remaining_n_required > 0 then
            let new_stored_state :=
              match state with
              | .Recompute _ => State.Recompute remaining_n_required
              | .Computed _ _ =>
                State.Computed ⟨T, downcasted⟩ remaining_n_required
            hmInsert s₁ node_id new_stored_state
          else s₁
        .ok (downcasted, s₂)

/-- C1: `InnerStates::get_owned_and_downcasted` removes the entry for the id,
decrements its required-count by one, fails fatally if the entry is absent,
fails fatally if the stored value's runtime type does not match `T` (in
particular when the state is `Recompute` and stores no value at all), and,
when it returns a value, the store afterward holds the node again exactly
when the decremented count is still positive — then with an equivalent
`Computed` entry holding a clone of the extracted value and the decremented
count — leaving every other entry unchanged. -/
theorem claim_C1 (s : InnerStates) (node_id T : Nat) :
    (hmGet s node_id = none →
      get_owned_and_downcasted T s node_id = .error Panic.unwrapNone)
  ∧ (∀ st, hmGet s node_id = some st →
      (∀ c k, st = State.Computed c k → c.ty ≠ T) →
      ∃ e, get_owned_and_downcasted T s node_id = .error e)
  ∧ (∀ c k, hmGet s node_id = some (State.Computed c k) → c.ty = T →
      (hmKeys s).Nodup →
      ∃ s', get_owned_and_downcasted T s node_id = .ok (c.val, s')
        ∧ hmGet s' node_id =
            (if usizeSub1 k > 0 then
              some (State.Computed ⟨T, c.val⟩ (usizeSub1 k)) else none)
        ∧ ∀ j, j ≠ node_id → hmGet s' j = hmGet s j) := by
  refine ⟨fun h => ?_, fun st hst hmis => ?_, fun c k hst hty hnd => ?_⟩
  · simp [get_owned_and_downcasted, h]
  · cases st with
    | Recompute n =>
      refine ⟨.msg "A recompute state has no content", ?_⟩
      simp [get_owned_and_downcasted, hst, State.get_state_content]
    | Computed c k =>
      refine ⟨.unwrapNone, ?_⟩
      have : c.ty ≠ T := hmis c k rfl
      simp [get_owned_and_downcasted, hst, State.get_state_content,
        BoxedAny.downcast, this]
  · by_cases hrem : usizeSub1 k > 0
    · refine ⟨hmInsert (hmRemove s node_id) node_id
        (State.Computed ⟨T, c.val⟩ (usizeSub1 (State.Computed c k).n_required)), ?_, ?_, ?_⟩
      · simp [get_owned_and_downcasted, hst, State.get_state_content,
          BoxedAny.downcast, hty, State.n_required, hrem]
      · simp only [State.n_required]
        rw [hmGet_insert_self]
        simp [hrem]
      · intro j hj
        rw [hmGet_insert_ne _ _ _ _ hj, hmGet_remove_ne _ _ _ hj]
    · refine ⟨hmRemove s node_id, ?_, ?_, ?_⟩
      · simp [get_owned_and_downcasted, hst, State.get_state_content,
          BoxedAny.downcast, hty, State.n_required, hrem]
      · rw [hmGet_remove_self _ _ hnd]
        simp [hrem]
      · intro j hj
        rw [hmGet_remove_ne _ _ _ hj]

/-- Concrete store: one `Computed` entry at node 1 with demand count 2. -/
def c1s : InnerStates := [(1, State.Computed ⟨0, 42⟩ 2)]

/-- Witness for C1 at a concrete store. -/
theorem claim_C1_witness :
    hmGet c1s 1 = some (State.Computed ⟨0, 42⟩ 2) ∧
    ∃ s', get_owned_and_downcasted 0 c1s 1 = .ok (42, s')
      ∧ hmGet s' 1 =
          (if usizeSub1 2 > 0 then
            some (State.Computed ⟨0, 42⟩ (usizeSub1 2)) else none)
      ∧ ∀ j, j ≠ 1 → hmGet s' j = hmGet c1s j :=
  ⟨by decide, (claim_C1 c1s 1 0).2.2 ⟨0, 42⟩ 2 (by decide) rfl (by decide)⟩

/-! ### The Recompute Registry: `RetroForwards` -/

/-- A `Box<dyn RetroForward>`: an arbitrary replay procedure that "reads and
writes from the `InnerStates` map" (`checkpoint/base.rs` lines 7–12), i.e. a
state transformer that may panic. -/
abbrev RetroFn := InnerStates → Except Panic InnerStates

/-- `RetroForwards`: links `NodeID`s to their `RetroForward`
(`checkpoint/base.rs` lines 14–18). -/
abbrev RetroForwards := List (Nat × RetroFn)

/-- `RetroForwards::forward` (`checkpoint/base.rs` lines 20–27): look up the
node's `State` (`unwrap` panics when absent); when it is `Recompute`, run the
registered replay procedure on the whole store (`unwrap` panics when none is
registered); when it is `Computed`, do nothing. -/
def RetroForwards.forward (rf : RetroForwards) (node_id : Nat)
    (inner_states : InnerStates) : Except Panic InnerStates :=
  match hmGet inner_states node_id with
  | none => .error .unwrapNone
  | some (.Recompute _) =>
    match hmGet rf node_id with
    | none => .error .unwrapNone
    | some retro_forward => retro_forward inner_states
  | some (.Computed _ _) => .ok inner_states

/-! ### The node-parent edge map: `NodeTree` -/

/-- `NodeTree` (`checkpoint/base.rs` lines 93–97) maps a `NodeID` to its
`NodeRef`. Modelled from the spec: the `Node` type (in `graph/node.rs`, not
under `src/`) is used here only through its `parents` field, the ordered
list of parent `NodeID`s (spec §3, NodeTree edge map), so the map stores the
parents list directly. -/
abbrev NodeTree := List (Nat × List Nat)

/-- `NodeTree::parents` (`checkpoint/base.rs` lines 100–103): the parents of
a node; the `unwrap` panics when the node has no entry, which the embedding
surfaces as `none` at the call site. -/
def NodeTree.parents (t : NodeTree) (node_id : Nat) : Option (List Nat) :=
  hmGet t node_id

/-! ### The Checkpointer: `Checkpoint` -/

/-- `Checkpoint` (`checkpoint/base.rs` lines 111–117): fetches the output of
a node of the autodiff graph during the backward pass. -/
structure Checkpoint where
  inner_states : InnerStates
  retro_forwards : RetroForwards
  node_tree : NodeTree

/-- The `for parent_node in parents { sorted.extend(self.topological_sort(p)) }`
loop of `Checkpoint::topological_sort`, parameterized by the recursive sorter:
concatenate the sorts of a list of nodes, propagating the first panic. -/
def sortParentsWith (f : Nat → Except Panic (List Nat)) :
    List Nat → Except Panic (List Nat)
  | [] => .ok []
  | p :: ps =>
    match f p with
    | .error e => .error e
    | .ok l =>
      match sortParentsWith f ps with
      | .error e => .error e
      | .ok ls => .ok (l ++ ls)

/-- `Checkpoint::topological_sort` (`checkpoint/base.rs` lines 149–171):
sort the ancestors of a node so that all parents come before their children.
A `Recompute` node contributes the sorts of its parents (in order) followed
by itself; a `Computed` node contributes only itself; a node absent from the
state store is the fatal error `"Node is not in the map. ..."`. The fuel
argument bounds the unbounded Rust recursion. -/
def Checkpoint.topological_sort (cp : Checkpoint) :
    Nat → Nat → Except Panic (List Nat)
  | 0, _ => .error .fuel
  | fuel + 1, node_id =>
    match hmGet cp.inner_states node_id with
    | some (.Recompute _) =>
      match cp.node_tree.parents node_id with
      | none => .error .unwrapNone
      | some ps =>
        match sortParentsWith (fun p => cp.topological_sort fuel p) ps with
        | .error e => .error e
        | .ok sorted => .ok (sorted ++ [node_id])
    | some (.Computed _ _) => .ok [node_id]
    | none => .error (.msg "Node is not in the map. You may have tried to access it more times than n_required allowed.")

/-- The `.iter().for_each(|node| self.retro_forwards.forward(...))` loop of
`Checkpoint::get`: run `RetroForwards.forward` on each listed node in order,
threading the state store. -/
def foldForward (rf : RetroForwards) : List Nat → InnerStates →
    Except Panic InnerStates
  | [], st => .ok st
  | q :: t, st =>
    match rf.forward q st with
    | .error e => .error e
    | .ok st' => foldForward rf t st'

/-- `Checkpoint::get::<T>` (`checkpoint/base.rs` lines 122–131): sort the
ancestors topologically, run each node's retro-forward in order, then
extract the requested value from the state store. Returns the value and the
final state store (`self.inner_states` after the `&mut self` call). -/
def Checkpoint.get (T fuel : Nat) (cp : Checkpoint) (node_id : Nat) :
    Except Panic (Nat × InnerStates) :=
  match cp.topological_sort fuel node_id with
  | .error e => .error e
  | .ok sorted =>
    match foldForward cp.retro_forwards sorted cp.inner_states with
    | .error e => .error e
    | .ok st => get_owned_and_downcasted T st node_id

/-- C7: `RetroForwards::forward` is a no-op when the node's current `State`
is `Computed`; when it is `Recompute`, the registered replay procedure is
invoked on the whole state store; and forwarding a `Recompute` node with no
registered replay procedure fails fatally. -/
theorem claim_C7 (rf : RetroForwards) (st : InnerStates) (node_id : Nat) :
    (∀ c k, hmGet st node_id = some (.Computed c k) →
      RetroForwards.forward rf node_id st = .ok st)
  ∧ (∀ n f, hmGet st node_id = some (.Recompute n) →
      hmGet rf node_id = some f →
      RetroForwards.forward rf node_id st = f st)
  ∧ (∀ n, hmGet st node_id = some (.Recompute n) →
      hmGet rf node_id = none →
      RetroForwards.forward rf node_id st = .error Panic.unwrapNone) := by
  refine ⟨fun c k h => ?_, fun n f h hf => ?_, fun n h hf => ?_⟩
  · simp [RetroForwards.forward, h]
  · simp [RetroForwards.forward, h, hf]
  · simp [RetroForwards.forward, h, hf]

/-- Registry holding the identity replay procedure for node 1. -/
def c7rf : RetroForwards := [(1, fun s => Except.ok s)]

/-- Store holding a `Recompute` state for node 1. -/
def c7st : InnerStates := [(1, State.Recompute 1)]

/-- Witness for C7: forwarding the `Recompute` node 1 runs its registered
procedure (here the identity). -/
theorem claim_C7_witness :
    RetroForwards.forward c7rf 1 c7st = Except.ok c7st :=
  (claim_C7 c7rf c7st 1).2.1 1 (fun s => Except.ok s) rfl rfl

/-- C9: `RetroForwards::forward` on a node with no entry in the state store
fails fatally on the state lookup itself, whatever the registry contains (in
particular even when a replay procedure is registered for the node); it is
never a silent no-op. -/
theorem claim_C9 (rf : RetroForwards) (st : InnerStates) (node_id : Nat)
    (h : hmGet st node_id = none) :
    RetroForwards.forward rf node_id st = .error Panic.unwrapNone := by
  simp [RetroForwards.forward, h]

/-- Registry holding a replay procedure for node 5 (which the C9 witness
forwards on an empty store). -/
def c9rf : RetroForwards := [(5, fun s => Except.ok s)]

/-- Witness for C9: node 5 has a registered replay procedure but no state
entry, and forwarding it fails fatally. -/
theorem claim_C9_witness :
    hmGet ([] : InnerStates) 5 = none ∧
    RetroForwards.forward c9rf 5 [] = Except.error Panic.unwrapNone :=
  ⟨rfl, claim_C9 c9rf [] 5 rfl⟩

/-- Empty checkpoint used to refute the "error names the node id" half of
claim C3. -/
def c3cp : Checkpoint := ⟨[], [], []⟩

/-- Counterexample for C3: requesting two different absent nodes (5 and 7)
produces the very same fatal error value, whose fixed message therefore
cannot identify (name) the offending node id. -/
theorem claim_C3_counterexample :
    Checkpoint.get 0 9 c3cp 5 = Checkpoint.get 0 9 c3cp 7 ∧
    Checkpoint.get 0 9 c3cp 5 =
      Except.error (Panic.msg "Node is not in the map. You may have tried to access it more times than n_required allowed.") :=
  ⟨rfl, rfl⟩

/-- C3 (amended): `Checkpoint::get` on a node id absent from the State Store
terminates with a fatal error — the fixed message explaining that the node
is not in the map (possibly over-consumed) — rather than returning a default
value; the message does not include the offending node id. -/
theorem claim_C3 (T fuel : Nat) (cp : Checkpoint) (node_id : Nat)
    (habs : hmGet cp.inner_states node_id = none) (hfuel : 1 ≤ fuel) :
    Checkpoint.get T fuel cp node_id =
      .error (.msg "Node is not in the map. You may have tried to access it more times than n_required allowed.") := by
  obtain ⟨f, rfl⟩ : ∃ f, fuel = f + 1 := ⟨fuel - 1, by omega⟩
  simp [Checkpoint.get, Checkpoint.topological_sort, habs]

/-- Witness for C3 (amended) at the empty checkpoint and node 5. -/
theorem claim_C3_witness :
    hmGet c3cp.inner_states 5 = none ∧
    Checkpoint.get 0 9 c3cp 5 =
      .error (.msg "Node is not in the map. You may have tried to access it more times than n_required allowed.") :=
  ⟨rfl, claim_C3 0 9 c3cp 5 rfl (by omega)⟩

/-- Topological correctness of a replay sequence: at every occurrence of a
node `m` that is in `Recompute` state, all parents of `m` occur strictly
earlier in the sequence. -/
def SortedOK (cp : Checkpoint) (l : List Nat) : Prop :=
  ∀ l₁ m l₂, l = l₁ ++ m :: l₂ →
    ∀ n, hmGet cp.inner_states m = some (.Recompute n) →
      ∀ ps, cp.node_tree.parents m = some ps → ∀ p ∈ ps, p ∈ l₁

theorem sortedOK_nil (cp : Checkpoint) : SortedOK cp [] := by
  intro l₁ m l₂ h
  exact absurd h (by simp)

theorem SortedOK.append {cp : Checkpoint} {A B : List Nat}
    (hA : SortedOK cp A) (hB : SortedOK cp B) : SortedOK cp (A ++ B) := by
  intro l₁ m l₂ hsplit n hm ps hps p hp
  rcases List.append_eq_append_iff.mp hsplit with ⟨a', ha₁, ha₂⟩ | ⟨c', hc₁, hc₂⟩
  · have hpa : p ∈ a' := hB a' m l₂ ha₂ n hm ps hps p hp
    rw [ha₁]
    exact List.mem_append_right A hpa
  · cases c' with
    | nil =>
      have : p ∈ ([] : List Nat) := hB [] m l₂ (by simpa using hc₂.symm) n hm ps hps p hp
      exact absurd this (List.not_mem_nil p)
    | cons x t =>
      simp only [List.cons_append, List.cons.injEq] at hc₂
      obtain ⟨hmx, hl₂⟩ := hc₂
      subst hmx
      exact hA l₁ m t (by rw [hc₁]) n hm ps hps p hp

theorem list_singleton_split {x m : Nat} {l₁ l₂ : List Nat}
    (h : [x] = l₁ ++ m :: l₂) : l₁ = [] ∧ m = x ∧ l₂ = [] := by
  cases l₁ with
  | nil => simp_all
  | cons y t =>
    simp only [List.cons_append, List.cons.injEq] at h
    exact absurd h.2 (by simp)

theorem SortedOK.snoc {cp : Checkpoint} {L : List Nat} {node_id : Nat}
    (hok : SortedOK cp L)
    (hlast : ∀ n, hmGet cp.inner_states node_id = some (.Recompute n) →
      ∀ ps, cp.node_tree.parents node_id = some ps → ∀ p ∈ ps, p ∈ L) :
    SortedOK cp (L ++ [node_id]) := by
  intro l₁ m l₂ hsplit n hm ps hps p hp
  rcases List.append_eq_append_iff.mp hsplit with ⟨a', ha₁, ha₂⟩ | ⟨c', hc₁, hc₂⟩
  · obtain ⟨hae, hmx, hle⟩ := list_singleton_split ha₂
    subst hae hmx
    have : l₁ = L := by simpa using ha₁
    rw [this]
    exact hlast n hm ps hps p hp
  · cases c' with
    | nil =>
      simp only [List.nil_append, List.cons.injEq] at hc₂
      obtain ⟨hmx, hle⟩ := hc₂
      subst hmx
      have hl : l₁ = L := by simpa using hc₁.symm
      rw [hl]
      exact hlast n hm ps hps p hp
    | cons x t =>
      simp only [List.cons_append, List.cons.injEq] at hc₂
      obtain ⟨hmx, hl₂⟩ := hc₂
      subst hmx
      exact hok l₁ m t (by rw [hc₁]) n hm ps hps p hp

/-- Main induction for C2: a successful `topological_sort` yields a
topologically ordered sequence containing its root. -/
theorem topological_sort_sortedOK (cp : Checkpoint) : ∀ fuel node_id l,
    cp.topological_sort fuel node_id = .ok l → SortedOK cp l ∧ node_id ∈ l := by
  intro fuel
  induction fuel with
  | zero =>
    intro node_id l h
    exact absurd h (by simp [Checkpoint.topological_sort])
  | succ fuel ih =>
    have hmany : ∀ ps L,
        sortParentsWith (fun p => cp.topological_sort fuel p) ps = .ok L →
        SortedOK cp L ∧ ∀ p ∈ ps, p ∈ L := by
      intro ps
      induction ps with
      | nil =>
        intro L h
        simp only [sortParentsWith] at h
        injection h with h
        subst h
        exact ⟨sortedOK_nil cp, by simp⟩
      | cons p t ihp =>
        intro L h
        simp only [sortParentsWith] at h
        cases hf : cp.topological_sort fuel p with
        | error e => rw [hf] at h; cases h
        | ok l =>
          rw [hf] at h
          cases hr : sortParentsWith (fun q => cp.topological_sort fuel q) t with
          | error e => rw [hr] at h; cases h
          | ok ls =>
            rw [hr] at h
            injection h with h
            subst h
            obtain ⟨h1, h2⟩ := ih p l hf
            obtain ⟨h3, h4⟩ := ihp ls hr
            refine ⟨h1.append h3, ?_⟩
            intro q hq
            rcases List.mem_cons.mp hq with hq | hq
            · subst hq
              exact List.mem_append_left ls h2
            · exact List.mem_append_right l (h4 q hq)
    intro node_id l h
    cases hst : hmGet cp.inner_states node_id with
    | none => simp [Checkpoint.topological_sort, hst] at h
    | some s =>
      cases s with
      | Computed c k =>
        simp [Checkpoint.topological_sort, hst] at h
        subst h
        refine ⟨?_, by simp⟩
        intro l₁ m l₂ hsp n hm
        obtain ⟨_, hmx, _⟩ := list_singleton_split hsp
        subst hmx
        rw [hst] at hm
        cases hm
      | Recompute n =>
        cases hps : cp.node_tree.parents node_id with
        | none => simp [Checkpoint.topological_sort, hst, hps] at h
        | some ps =>
          cases hr : sortParentsWith (fun p => cp.topological_sort fuel p) ps with
          | error e => simp [Checkpoint.topological_sort, hst, hps, hr] at h
          | ok L =>
            simp [Checkpoint.topological_sort, hst, hps, hr] at h
            subst h
            obtain ⟨hok, hmem⟩ := hmany ps L hr
            refine ⟨hok.snoc ?_, by simp⟩
            intro n' hm' ps' hps' p hp
            rw [hps] at hps'
            injection hps' with e
            subst e
            exact hmem p hp

/-- C2: a successful `Checkpoint::topological_sort` places, at every
occurrence of a `Recompute`-state node in the produced sequence, all of that
node's parents strictly earlier in the sequence; a node already `Computed`
contributes only itself (none of its ancestors); and `Checkpoint::get`
processes exactly this sequence, invoking the recompute registry's `forward`
on each element in order, before extracting the requested value. -/
theorem claim_C2 (T fuel : Nat) (cp : Checkpoint) (node_id : Nat) (l : List Nat)
    (h : cp.topological_sort fuel node_id = .ok l) :
    (∀ l₁ m l₂, l = l₁ ++ m :: l₂ →
      ∀ n, hmGet cp.inner_states m = some (.Recompute n) →
        ∀ ps, cp.node_tree.parents m = some ps → ∀ p ∈ ps, p ∈ l₁)
  ∧ (∀ c k, hmGet cp.inner_states node_id = some (.Computed c k) → l = [node_id])
  ∧ Checkpoint.get T fuel cp node_id =
      (match foldForward cp.retro_forwards l cp.inner_states with
       | .error e => .error e
       | .ok st => get_owned_and_downcasted T st node_id) := by
  refine ⟨(topological_sort_sortedOK cp fuel node_id l h).1, ?_, ?_⟩
  · intro c k hc
    obtain ⟨f, rfl⟩ : ∃ f, fuel = f + 1 := by
      cases fuel with
      | zero => exact absurd h (by simp [Checkpoint.topological_sort])
      | succ f => exact ⟨f, rfl⟩
    simp [Checkpoint.topological_sort, hc] at h
    first
    | exact h
    | exact h.symm
  · simp [Checkpoint.get, h]

/-- Checkpoint with node 1 in `Recompute` state whose single parent node 2 is
`Computed`; its topological sort for node 1 is `[2, 1]`. -/
def c2cp : Checkpoint :=
  ⟨[(1, State.Recompute 1), (2, State.Computed ⟨0, 7⟩ 1)], [], [(1, [2])]⟩

/-- Witness for C2 at the concrete checkpoint `c2cp` and sequence `[2, 1]`. -/
theorem claim_C2_witness :
    (∀ l₁ m l₂, ([2, 1] : List Nat) = l₁ ++ m :: l₂ →
      ∀ n, hmGet c2cp.inner_states m = some (.Recompute n) →
        ∀ ps, c2cp.node_tree.parents m = some ps → ∀ p ∈ ps, p ∈ l₁)
  ∧ (∀ c k, hmGet c2cp.inner_states 1 = some (.Computed c k) →
      ([2, 1] : List Nat) = [1])
  ∧ Checkpoint.get 0 3 c2cp 1 =
      (match foldForward c2cp.retro_forwards [2, 1] c2cp.inner_states with
       | .error e => .error e
       | .ok st => get_owned_and_downcasted 0 st 1) :=
  claim_C2 0 3 c2cp 1 [2, 1] rfl

/-! ### Instrumented model for C5: replay traces -/

/-- Instrumented twin of `RetroForwards.forward`: identical state behavior,
but additionally reports the list of node ids whose replay procedure was
actually invoked (`[node_id]` in the `Recompute` branch, `[]` otherwise). -/
def forwardT (rf : RetroForwards) (node_id : Nat) (st : InnerStates) :
    Except Panic (InnerStates × List Nat) :=
  match hmGet st node_id with
  | none => .error .unwrapNone
  | some (.Recompute _) =>
    match hmGet rf node_id with
    | none => .error .unwrapNone
    | some retro_forward =>
      match retro_forward st with
      | .error e => .error e
      | .ok st' => .ok (st', [node_id])
  | some (.Computed _ _) => .ok (st, [])

/-- Instrumented twin of `foldForward`, concatenating the replay traces of
the processed nodes in order. -/
def foldForwardT (rf : RetroForwards) : List Nat → InnerStates →
    Except Panic (InnerStates × List Nat)
  | [], st => .ok (st, [])
  | q :: t, st =>
    match forwardT rf q st with
    | .error e => .error e
    | .ok (st₁, tr₁) =>
      match foldForwardT rf t st₁ with
      | .error e => .error e
      | .ok (st₂, tr₂) => .ok (st₂, tr₁ ++ tr₂)

/-- Instrumented twin of `Checkpoint.get`, additionally returning the list
of node ids whose replay procedure was invoked during the call. -/
def Checkpoint.getT (T fuel : Nat) (cp : Checkpoint) (node_id : Nat) :
    Except Panic (Nat × InnerStates × List Nat) :=
  match cp.topological_sort fuel node_id with
  | .error e => .error e
  | .ok sorted =>
    match foldForwardT cp.retro_forwards sorted cp.inner_states with
    | .error e => .error e
    | .ok (st, tr) =>
      match get_owned_and_downcasted T st node_id with
      | .error e => .error e
      | .ok (v, st') => .ok (v, st', tr)

theorem forward_eq_forwardT (rf : RetroForwards) (q : Nat) (st : InnerStates) :
    RetroForwards.forward rf q st = (forwardT rf q st).map Prod.fst := by
  unfold RetroForwards.forward forwardT
  cases hmGet st q with
  | none => rfl
  | some s =>
    cases s with
    | Recompute n =>
      cases hmGet rf q with
      | none => rfl
      | some f =>
        cases hf : f st with
        | error e => simp [hf, Except.map]
        | ok st' => simp [hf, Except.map]
    | Computed c k => rfl

theorem foldForward_eq_foldForwardT (rf : RetroForwards) (l : List Nat) :
    ∀ st, foldForward rf l st = (foldForwardT rf l st).map Prod.fst := by
  induction l with
  | nil => intro st; rfl
  | cons q t ih =>
    intro st
    unfold foldForward foldForwardT
    rw [forward_eq_forwardT]
    cases forwardT rf q st with
    | error e => rfl
    | ok p =>
      obtain ⟨st₁, tr₁⟩ := p
      simp only [Except.map]
      rw [ih st₁]
      cases foldForwardT rf t st₁ with
      | error e => rfl
      | ok p₂ => rfl

theorem get_eq_getT (T fuel : Nat) (cp : Checkpoint) (node_id : Nat) :
    Checkpoint.get T fuel cp node_id =
      (Checkpoint.getT T fuel cp node_id).map (fun r => (r.1, r.2.1)) := by
  unfold Checkpoint.get Checkpoint.getT
  cases cp.topological_sort fuel node_id with
  | error e => rfl
  | ok sorted =>
    simp only
    rw [foldForward_eq_foldForwardT]
    cases foldForwardT cp.retro_forwards sorted cp.inner_states with
    | error e => rfl
    | ok p =>
      obtain ⟨st, tr⟩ := p
      simp only [Except.map]
      cases get_owned_and_downcasted T st node_id with
      | error e => rfl
      | ok q => rfl

/-! ### Replay procedures obeying the spec's State-Store contract -/

/-- Modelled from the spec: the concrete `RetroForward` implementations live
in the operations layer of the crate, not under `src/`. Per spec §3, a
replay procedure "reads zero or more parent values out of the State Store
(via the same ownership/refcount contract) and inserts its own computed
output back into the State Store as a `Computed` state with the refcount
supplied by the scheduling logic". `inputs` lists the parent reads in order
(node id and expected type tag), `out` is the procedure's own node, `outTy`
the type tag of its output, and `f` computes the output payload from the
values read. -/
structure RetroProc where
  inputs : List (Nat × Nat)
  out : Nat
  outTy : Nat
  f : List Nat → Nat

/-- Read a list of parent values out of the State Store, in order, through
`get_owned_and_downcasted` (the ownership/refcount contract). -/
def readInputs : List (Nat × Nat) → InnerStates →
    Except Panic (List Nat × InnerStates)
  | [], st => .ok ([], st)
  | (id, ty) :: rest, st =>
    match get_owned_and_downcasted ty st id with
    | .error e => .error e
    | .ok (v, st') =>
      match readInputs rest st' with
      | .error e => .error e
      | .ok (vs, st'') => .ok (v :: vs, st'')

/-- Run a replay procedure: read the demand counter of its own node, read
its parent values through the refcount contract, and write the computed
output back as a `Computed` state with that counter. -/
def RetroProc.run (P : RetroProc) (st : InnerStates) :
    Except Panic InnerStates :=
  match hmGet st P.out with
  | none => .error .unwrapNone
  | some s =>
    match readInputs P.inputs st with
    | .error e => .error e
    | .ok (vals, st₁) =>
      .ok (hmInsert st₁ P.out (.Computed ⟨P.outTy, P.f vals⟩ s.n_required))

/-! ### Lemmas for C5 -/

theorem gOD_ok_inv {T : Nat} {st : InnerStates} {node_id v : Nat}
    {st' : InnerStates}
    (h : get_owned_and_downcasted T st node_id = .ok (v, st')) :
    ∃ c k, hmGet st node_id = some (.Computed c k) ∧ c.ty = T ∧ v = c.val ∧
      st' = (if usizeSub1 k > 0 then
          hmInsert (hmRemove st node_id) node_id
            (.Computed ⟨T, c.val⟩ (usizeSub1 k))
        else hmRemove st node_id) := by
  unfold get_owned_and_downcasted at h
  cases hst : hmGet st node_id with
  | none => rw [hst] at h; cases h
  | some s =>
    rw [hst] at h
    cases s with
    | Recompute n => simp [State.get_state_content] at h
    | Computed c k =>
      by_cases hty : c.ty = T
      · simp only [State.get_state_content, BoxedAny.downcast, if_pos hty,
          State.n_required] at h
        injection h with h
        rw [Prod.mk.injEq] at h
        exact ⟨c, k, rfl, hty, h.1.symm, h.2.symm⟩
      · simp [State.get_state_content, BoxedAny.downcast, hty] at h

theorem gOD_frame {T : Nat} {st : InnerStates} {node_id v : Nat}
    {st' : InnerStates}
    (h : get_owned_and_downcasted T st node_id = .ok (v, st'))
    (j : Nat) (hj : j ≠ node_id) : hmGet st' j = hmGet st j := by
  obtain ⟨c, k, hc, hty, hv, hs⟩ := gOD_ok_inv h
  rw [hs]
  split
  · rw [hmGet_insert_ne _ _ _ _ hj, hmGet_remove_ne _ _ _ hj]
  · rw [hmGet_remove_ne _ _ _ hj]

theorem mem_hmKeys_insert {α : Type} (m : List (Nat × α)) (k : Nat) (v : α)
    (j : Nat) : j ∈ hmKeys (hmInsert m k v) ↔ j = k ∨ j ∈ hmKeys m := by
  induction m with
  | nil => simp [hmInsert, hmKeys]
  | cons p t ih =>
    obtain ⟨k', v'⟩ := p
    by_cases hk : k' = k
    · subst hk
      simp [hmInsert, hmKeys]
    · simp only [hmInsert, if_neg hk, hmKeys, List.map_cons, List.mem_cons]
      rw [show (List.map Prod.fst (hmInsert t k v)) = hmKeys (hmInsert t k v) from rfl]
      rw [ih]
      tauto

theorem hmKeys_insert_nodup {α : Type} (m : List (Nat × α)) (k : Nat) (v : α)
    (h : (hmKeys m).Nodup) : (hmKeys (hmInsert m k v)).Nodup := by
  induction m with
  | nil => simp [hmInsert, hmKeys]
  | cons p t ih =>
    obtain ⟨k', v'⟩ := p
    simp only [hmKeys, List.map_cons, List.nodup_cons] at h
    by_cases hk : k' = k
    · subst hk
      simp [hmInsert, hmKeys]
      exact ⟨by simpa using h.1, h.2⟩
    · simp only [hmInsert, if_neg hk, hmKeys, List.map_cons, List.nodup_cons]
      refine ⟨?_, ih h.2⟩
      intro hmem
      rcases (mem_hmKeys_insert t k v k').mp hmem with he | hmem'
      · exact hk he
      · exact h.1 hmem'

theorem mem_hmKeys_remove {α : Type} (m : List (Nat × α)) (k j : Nat)
    (h : j ∈ hmKeys (hmRemove m k)) : j ∈ hmKeys m := by
  induction m with
  | nil => simpa [hmRemove] using h
  | cons p t ih =>
    obtain ⟨k', v'⟩ := p
    by_cases hk : k' = k
    · subst hk
      simp only [hmRemove, if_pos rfl] at h
      simp [hmKeys]
      right
      simpa [hmKeys] using h
    · simp only [hmRemove, if_neg hk, hmKeys, List.map_cons, List.mem_cons] at h ⊢
      rcases h with h | h
      · exact Or.inl h
      · exact Or.inr (ih h)

theorem hmKeys_remove_nodup {α : Type} (m : List (Nat × α)) (k : Nat)
    (h : (hmKeys m).Nodup) : (hmKeys (hmRemove m k)).Nodup := by
  induction m with
  | nil => simp [hmRemove, hmKeys]
  | cons p t ih =>
    obtain ⟨k', v'⟩ := p
    simp only [hmKeys, List.map_cons, List.nodup_cons] at h
    by_cases hk : k' = k
    · simp only [hmRemove, if_pos hk]
      exact h.2
    · simp only [hmRemove, if_neg hk, hmKeys, List.map_cons, List.nodup_cons]
      refine ⟨fun hmem => h.1 (mem_hmKeys_remove t k k' hmem), ih h.2⟩

theorem gOD_nodup {T : Nat} {st : InnerStates} {node_id v : Nat}
    {st' : InnerStates}
    (h : get_owned_and_downcasted T st node_id = .ok (v, st'))
    (hnd : (hmKeys st).Nodup) : (hmKeys st').Nodup := by
  obtain ⟨c, k, hc, hty, hv, hs⟩ := gOD_ok_inv h
  rw [hs]
  split
  · exact hmKeys_insert_nodup _ _ _ (hmKeys_remove_nodup _ _ hnd)
  · exact hmKeys_remove_nodup _ _ hnd

theorem gOD_m_recompute {T : Nat} {st : InnerStates} {node_id v m n : Nat}
    {st' : InnerStates}
    (h : get_owned_and_downcasted T st node_id = .ok (v, st'))
    (hm : hmGet st m = some (.Recompute n)) :
    hmGet st' m = some (.Recompute n) := by
  by_cases hid : m = node_id
  · subst hid
    obtain ⟨c, k, hc, _, _, _⟩ := gOD_ok_inv h
    rw [hm] at hc
    cases hc
  · rw [gOD_frame h m hid]
    exact hm

theorem gOD_m_computedOrNone {T : Nat} {st : InnerStates} {node_id v m : Nat}
    {st' : InnerStates}
    (h : get_owned_and_downcasted T st node_id = .ok (v, st'))
    (hnd : (hmKeys st).Nodup)
    (hm : hmGet st m = none ∨ ∃ c k, hmGet st m = some (.Computed c k)) :
    hmGet st' m = none ∨ ∃ c k, hmGet st' m = some (.Computed c k) := by
  by_cases hid : m = node_id
  · subst hid
    obtain ⟨c, k, hc, hty, hv, hs⟩ := gOD_ok_inv h
    rw [hs]
    split
    · right
      exact ⟨⟨T, c.val⟩, usizeSub1 k, by rw [hmGet_insert_self]⟩
    · left
      exact hmGet_remove_self _ _ hnd
  · rw [gOD_frame h m hid]
    exact hm

theorem readInputs_inv (m : Nat) : ∀ (ins : List (Nat × Nat))
    (st : InnerStates) (vs : List Nat) (st' : InnerStates),
    readInputs ins st = .ok (vs, st') → (hmKeys st).Nodup →
    (hmKeys st').Nodup ∧
    (∀ n, hmGet st m = some (.Recompute n) → hmGet st' m = some (.Recompute n)) ∧
    ((hmGet st m = none ∨ ∃ c k, hmGet st m = some (.Computed c k)) →
      (hmGet st' m = none ∨ ∃ c k, hmGet st' m = some (.Computed c k))) := by
  intro ins
  induction ins with
  | nil =>
    intro st vs st' h hnd
    simp only [readInputs] at h
    injection h with h
    rw [Prod.mk.injEq] at h
    rw [← h.2]
    exact ⟨hnd, fun n hn => hn, id⟩
  | cons p rest ih =>
    obtain ⟨id, ty⟩ := p
    intro st vs st' h hnd
    simp only [readInputs] at h
    cases hg : get_owned_and_downcasted ty st id with
    | error e => rw [hg] at h; cases h
    | ok q =>
      obtain ⟨v, st₁⟩ := q
      rw [hg] at h
      dsimp only at h
      cases hr : readInputs rest st₁ with
      | error e => rw [hr] at h; cases h
      | ok q₂ =>
        obtain ⟨vs₂, st₂⟩ := q₂
        rw [hr] at h
        injection h with h
        rw [Prod.mk.injEq] at h
        rw [← h.2]
        obtain ⟨hnd₂, hrec, hcn⟩ :=
          ih st₁ vs₂ st₂ hr (gOD_nodup hg hnd)
        refine ⟨hnd₂, ?_, ?_⟩
        · intro n hn
          exact hrec n (gOD_m_recompute hg hn)
        · intro hm
          exact hcn (gOD_m_computedOrNone hg hnd hm)

theorem run_inv (m : Nat) (P : RetroProc) (st st' : InnerStates)
    (h : P.run st = .ok st') (hnd : (hmKeys st).Nodup) :
    (hmKeys st').Nodup ∧
    (P.out = m → ∃ c k, hmGet st' m = some (.Computed c k)) ∧
    (P.out ≠ m →
      (∀ n, hmGet st m = some (.Recompute n) → hmGet st' m = some (.Recompute n)) ∧
      ((hmGet st m = none ∨ ∃ c k, hmGet st m = some (.Computed c k)) →
        (hmGet st' m = none ∨ ∃ c k, hmGet st' m = some (.Computed c k)))) := by
  unfold RetroProc.run at h
  cases hs : hmGet st P.out with
  | none => rw [hs] at h; cases h
  | some s =>
    rw [hs] at h
    cases hr : readInputs P.inputs st with
    | error e => rw [hr] at h; cases h
    | ok q =>
      obtain ⟨vals, st₁⟩ := q
      rw [hr] at h
      injection h with h
      rw [← h]
      obtain ⟨hnd₁, hrec, hcn⟩ := readInputs_inv m P.inputs st vals st₁ hr hnd
      refine ⟨hmKeys_insert_nodup _ _ _ hnd₁, ?_, ?_⟩
      · intro hout
        rw [← hout]
        exact ⟨⟨P.outTy, P.f vals⟩, s.n_required, hmGet_insert_self _ _ _⟩
      · intro hout
        have hmo : m ≠ P.out := Ne.symm hout
        constructor
        · intro n hn
          rw [hmGet_insert_ne _ _ _ _ hmo]
          exact hrec n hn
        · intro hm
          rw [hmGet_insert_ne _ _ _ _ hmo]
          exact hcn hm

/-- Invariant for the C5 fold: either the shared node `m` is still in
`Recompute` state and its replay has not run (`cnt = 0`), or `m` is
`Computed` or consumed and its replay has run exactly once (`cnt = 1`). The
store keys stay duplicate-free throughout. -/
def C5Inv (m : Nat) (st : InnerStates) (cnt : Nat) : Prop :=
  (hmKeys st).Nodup ∧
  (((∃ n, hmGet st m = some (.Recompute n)) ∧ cnt = 0) ∨
   ((hmGet st m = none ∨ ∃ c k, hmGet st m = some (.Computed c k)) ∧ cnt = 1))

theorem forwardT_inv (rf : RetroForwards) (m : Nat)
    (hwf : ∀ q f, hmGet rf q = some f →
      ∃ P : RetroProc, f = RetroProc.run P ∧ P.out = q)
    (q : Nat) (st st' : InnerStates) (tr : List Nat) (cnt : Nat)
    (h : forwardT rf q st = .ok (st', tr)) (hI : C5Inv m st cnt) :
    C5Inv m st' (cnt + List.count m tr) := by
  unfold forwardT at h
  cases hs : hmGet st q with
  | none => rw [hs] at h; cases h
  | some s =>
    rw [hs] at h
    cases s with
    | Computed c k =>
      injection h with h
      rw [Prod.mk.injEq] at h
      rw [← h.1, ← h.2]
      simpa using hI
    | Recompute n =>
      cases hf : hmGet rf q with
      | none => rw [hf] at h; cases h
      | some f =>
        rw [hf] at h
        dsimp only at h
        obtain ⟨P, rfl, hout⟩ := hwf q f hf
        cases hrun : RetroProc.run P st with
        | error e => rw [hrun] at h; cases h
        | ok st₁ =>
          rw [hrun] at h
          injection h with h
          rw [Prod.mk.injEq] at h
          rw [← h.1, ← h.2]
          obtain ⟨hnd, hI⟩ := hI
          obtain ⟨hnd₁, hown, hother⟩ := run_inv m P st st₁ hrun hnd
          rcases hI with ⟨⟨n', hm⟩, rfl⟩ | ⟨hcn, rfl⟩
          · by_cases hqm : q = m
            · subst hqm
              refine ⟨hnd₁, Or.inr ⟨Or.inr (hown hout), ?_⟩⟩
              simp
            · have hne : P.out ≠ m := by rw [hout]; exact hqm
              refine ⟨hnd₁, Or.inl ⟨⟨n', (hother hne).1 n' hm⟩, ?_⟩⟩
              simp [Ne.symm hqm]
          · by_cases hqm : q = m
            · subst hqm
              rcases hcn with hnone | ⟨c, k, hc⟩
              · rw [hs] at hnone; cases hnone
              · rw [hs] at hc
                cases hc
            · have hne : P.out ≠ m := by rw [hout]; exact hqm
              refine ⟨hnd₁, Or.inr ⟨(hother hne).2 hcn, ?_⟩⟩
              simp [Ne.symm hqm]

theorem foldForwardT_inv (rf : RetroForwards) (m : Nat)
    (hwf : ∀ q f, hmGet rf q = some f →
      ∃ P : RetroProc, f = RetroProc.run P ∧ P.out = q) :
    ∀ (l : List Nat) (st st' : InnerStates) (tr : List Nat) (cnt : Nat),
    foldForwardT rf l st = .ok (st', tr) → C5Inv m st cnt →
    C5Inv m st' (cnt + List.count m tr) := by
  intro l
  induction l with
  | nil =>
    intro st st' tr cnt h hI
    simp only [foldForwardT] at h
    injection h with h
    rw [Prod.mk.injEq] at h
    rw [← h.1, ← h.2]
    simpa using hI
  | cons q t ih =>
    intro st st' tr cnt h hI
    simp only [foldForwardT] at h
    cases hq : forwardT rf q st with
    | error e => rw [hq] at h; cases h
    | ok p₁ =>
      obtain ⟨st₁, tr₁⟩ := p₁
      rw [hq] at h
      dsimp only at h
      cases hrest : foldForwardT rf t st₁ with
      | error e => rw [hrest] at h; cases h
      | ok p₂ =>
        obtain ⟨st₂, tr₂⟩ := p₂
        rw [hrest] at h
        injection h with h
        rw [Prod.mk.injEq] at h
        rw [← h.1, ← h.2]
        have h1 := forwardT_inv rf m hwf q st st₁ tr₁ cnt hq hI
        have h2 := ih st₁ st₂ tr₂ (cnt + List.count m tr₁) hrest h1
        simpa [List.count_append, Nat.add_assoc] using h2

/-- C5: when a node `m` is in `Recompute` state with `n_required = 2` and
every registered replay procedure obeys the State-Store contract (it is a
`RetroProc.run` writing its own node), then across two consecutive
`Checkpoint::get` resolutions of `m` (instrumented to record replay
invocations) the replay procedure of `m` executes exactly once, and both
consumers receive equal values. -/
theorem claim_C5 (cp : Checkpoint) (m T fuel₁ fuel₂ v₁ v₂ : Nat)
    (st₁ st₂ : InnerStates) (tr₁ tr₂ : List Nat)
    (hnd : (hmKeys cp.inner_states).Nodup)
    (hwf : ∀ q f, hmGet cp.retro_forwards q = some f →
      ∃ P : RetroProc, f = RetroProc.run P ∧ P.out = q)
    (hm : hmGet cp.inner_states m = some (.Recompute 2))
    (h₁ : Checkpoint.getT T fuel₁ cp m = .ok (v₁, st₁, tr₁))
    (h₂ : Checkpoint.getT T fuel₂ ⟨st₁, cp.retro_forwards, cp.node_tree⟩ m =
      .ok (v₂, st₂, tr₂)) :
    List.count m (tr₁ ++ tr₂) = 1 ∧ v₁ = v₂ := by
  unfold Checkpoint.getT at h₁
  cases hs₁ : cp.topological_sort fuel₁ m with
  | error e => rw [hs₁] at h₁; cases h₁
  | ok l₁ =>
    rw [hs₁] at h₁
    dsimp only at h₁
    cases hfold : foldForwardT cp.retro_forwards l₁ cp.inner_states with
    | error e => rw [hfold] at h₁; cases h₁
    | ok p =>
      obtain ⟨stf, trf⟩ := p
      rw [hfold] at h₁
      dsimp only at h₁
      cases hx : get_owned_and_downcasted T stf m with
      | error e => rw [hx] at h₁; cases h₁
      | ok q =>
        obtain ⟨vx, stx⟩ := q
        rw [hx] at h₁
        injection h₁ with h₁
        rw [Prod.mk.injEq] at h₁
        obtain ⟨hv₁, h₁r⟩ := h₁
        rw [Prod.mk.injEq] at h₁r
        obtain ⟨hst₁, htr₁⟩ := h₁r
        have hI0 : C5Inv m cp.inner_states 0 := ⟨hnd, Or.inl ⟨⟨2, hm⟩, rfl⟩⟩
        have hIf := foldForwardT_inv cp.retro_forwards m hwf l₁
          cp.inner_states stf trf 0 hfold hI0
        obtain ⟨c, k, hc, hty, hvv, hsx⟩ := gOD_ok_inv hx
        obtain ⟨hndf, hIf⟩ := hIf
        rcases hIf with ⟨⟨n', hrec⟩, hcnt⟩ | ⟨_, hcnt⟩
        · rw [hc] at hrec
          cases hrec
        · cases fuel₂ with
          | zero =>
            simp [Checkpoint.getT, Checkpoint.topological_sort] at h₂
          | succ f₂ =>
            by_cases hpos : usizeSub1 k > 0
            · have hm₁ : hmGet st₁ m =
                  some (.Computed ⟨T, c.val⟩ (usizeSub1 k)) := by
                rw [← hst₁, hsx, if_pos hpos, hmGet_insert_self]
              have hsort₂ : Checkpoint.topological_sort
                  ⟨st₁, cp.retro_forwards, cp.node_tree⟩ (f₂ + 1) m =
                  .ok [m] := by
                simp [Checkpoint.topological_sort, hm₁]
              have hfold₂ : foldForwardT cp.retro_forwards [m] st₁ =
                  .ok (st₁, []) := by
                simp [foldForwardT, forwardT, hm₁]
              unfold Checkpoint.getT at h₂
              rw [hsort₂] at h₂
              dsimp only at h₂
              rw [hfold₂] at h₂
              dsimp only at h₂
              cases hx₂ : get_owned_and_downcasted T st₁ m with
              | error e => rw [hx₂] at h₂; cases h₂
              | ok q₂ =>
                obtain ⟨vy, sty⟩ := q₂
                rw [hx₂] at h₂
                injection h₂ with h₂
                rw [Prod.mk.injEq] at h₂
                obtain ⟨hv₂, h₂r⟩ := h₂
                rw [Prod.mk.injEq] at h₂r
                obtain ⟨hst₂, htr₂⟩ := h₂r
                obtain ⟨c', k', hc', hty', hvy, _⟩ := gOD_ok_inv hx₂
                rw [hm₁] at hc'
                injection hc' with hc'
                injection hc' with hcc hkk
                constructor
                · rw [← htr₁, ← htr₂]
                  simpa using hcnt
                · rw [← hv₁, ← hv₂, hvv, hvy, ← hcc]
            · have hm₁ : hmGet st₁ m = none := by
                rw [← hst₁, hsx, if_neg hpos]
                exact hmGet_remove_self _ _ hndf
              simp [Checkpoint.getT, Checkpoint.topological_sort, hm₁] at h₂

/-- Replay procedure for node 1 reading no inputs and producing payload 7. -/
def c5P : RetroProc := ⟨[], 1, 0, fun _ => 7⟩

/-- Checkpoint for the C5 witness: node 1 in `Recompute` state with
`n_required = 2`, its replay procedure registered, no parents. -/
def c5cp : Checkpoint :=
  ⟨[(1, State.Recompute 2)], [(1, RetroProc.run c5P)], [(1, [])]⟩

/-- Witness for C5 at the concrete checkpoint `c5cp`: across the two `get`
resolutions of node 1 its replay runs exactly once and both reads give 7. -/
theorem claim_C5_witness :
    List.count 1 (([1] : List Nat) ++ ([] : List Nat)) = 1 ∧ (7 : Nat) = 7 :=
  claim_C5 c5cp 1 0 3 3 7 7 [(1, State.Computed ⟨0, 7⟩ 1)] [] [1] []
    (by decide)
    (by
      intro q f h
      by_cases hq : (1 : Nat) = q
      · subst hq
        refine ⟨c5P, ?_, rfl⟩
        have hl : hmGet c5cp.retro_forwards 1 = some (RetroProc.run c5P) := rfl
        rw [hl] at h
        injection h with h
        exact h.symm
      · have hl : hmGet c5cp.retro_forwards q = none := by
          simp [c5cp, hmGet, hq]
        rw [hl] at h
        cases h)
    rfl rfl rfl

/-! ### The Graph: backward-step registry with shared storage -/

/-- A backward step `Box<dyn Step>`: opaque to the bookkeeping core, so
modelled as an identifier. -/
abbrev StepBoxed := Nat

/-- `NodeSteps = HashMap<NodeID, StepBoxed>` (`graph/base.rs` line 21). -/
abbrev NodeSteps := List (Nat × StepBoxed)

/-- Modelled from the spec: `CheckpointingAction` lives in the ops layer,
not under `src/`; per spec §3 it is an instruction tagged with the node it
concerns, the rest of its content being opaque to merging. -/
structure CheckpointingAction where
  node : Nat
  payload : Nat
deriving DecidableEq

/-- `CheckpointingActions` (`graph/base.rs` lines 23–27): separately
accumulated main and backup actions. -/
structure CheckpointingActions where
  main_actions : List CheckpointingAction
  backup_actions : List CheckpointingAction
deriving DecidableEq

/-- `CheckpointingActions::extend` (`graph/base.rs` lines 29–37): push every
action of `other`, in order, after one's own, within each partition. -/
def CheckpointingActions.extend (a other : CheckpointingActions) :
    CheckpointingActions :=
  ⟨a.main_actions ++ other.main_actions,
   a.backup_actions ++ other.backup_actions⟩

/-- `CheckpointingActions::len` (`graph/base.rs` lines 39–41). -/
def CheckpointingActions.len (a : CheckpointingActions) : Nat :=
  a.main_actions.length + a.backup_actions.length

/-- A `Graph` handle (`graph/base.rs` lines 47–51): two `Arc`s to shared
storage, modelled as references (indices) into the heap of storages;
`Clone` copies the references. -/
structure GraphH where
  stepsRef : Nat
  actionsRef : Nat
deriving DecidableEq

/-- The shared storages behind the `Arc<Mutex<_>>` fields of all live
graphs: one storage family for step maps, one for checkpointing actions.
The unique-reference/lock distinction of `execute_mut_steps` and
`execute_mut_checkpointing_actions` (lines 92–106 and 145–162) affects only
locking, never the resulting mutation, so the embedding applies the mutated
function directly to the referenced storage. -/
structure Heap where
  stepsH : Nat → NodeSteps
  actionsH : Nat → CheckpointingActions

def Heap.setSteps (h : Heap) (r : Nat) (m : NodeSteps) : Heap :=
  ⟨fun x => if x = r then m else h.stepsH x, h.actionsH⟩

def Heap.setActions (h : Heap) (r : Nat) (a : CheckpointingActions) : Heap :=
  ⟨h.stepsH, fun x => if x = r then a else h.actionsH x⟩

/-- `Graph::steps` (`graph/base.rs` lines 68–74): swap the backing step map
with a fresh empty one and return the drained map. -/
def Graph.steps (h : Heap) (g : GraphH) : NodeSteps × Heap :=
  (h.stepsH g.stepsRef, h.setSteps g.stepsRef [])

/-- `Graph::register` (`graph/base.rs` lines 76–81): insert a step for a
node id into the shared step map; the handle is returned unchanged. -/
def Graph.register (h : Heap) (g : GraphH) (id : Nat) (ops : StepBoxed) :
    GraphH × Heap :=
  (g, h.setSteps g.stepsRef (hmInsert (h.stepsH g.stepsRef) id ops))

/-- `Graph::checkpointing_actions_own` (`graph/base.rs` lines 137–143):
swap the backing actions with fresh empty ones and return the drained
actions. -/
def Graph.checkpointing_actions_own (h : Heap) (g : GraphH) :
    CheckpointingActions × Heap :=
  (h.actionsH g.actionsRef, h.setActions g.actionsRef ⟨[], []⟩)

/-- `Graph::merge_different` (`graph/base.rs` lines 108–132): drain the
other graph's step map and actions, then fold the smaller structure into
the larger one — both for the step maps (`HashMap::extend`, second argument
wins collisions) and for the action lists (`CheckpointingActions::extend`,
concatenation within partitions). -/
def Graph.merge_different (h : Heap) (g other : GraphH) : GraphH × Heap :=
  let s₂ := Graph.steps h other
  let map2 := s₂.1
  let a₂ := Graph.checkpointing_actions_own s₂.2 other
  let actions2 := a₂.1
  let h₂ := a₂.2
  let map1 := h₂.stepsH g.stepsRef
  let h₃ := h₂.setSteps g.stepsRef
    (if map1.length > map2.length then hmExtend map1 map2
     else hmExtend map2 map1)
  let actions1 := h₃.actionsH g.actionsRef
  let h₄ := h₃.setActions g.actionsRef
    (if actions1.len > actions2.len then actions1.extend actions2
     else actions2.extend actions1)
  (g, h₄)

/-- `Graph::merge` (`graph/base.rs` lines 84–90): pointer-equal shared step
storage makes merging the identity on `self`; otherwise the storages are
merged. -/
def Graph.merge (h : Heap) (g other : GraphH) : GraphH × Heap :=
  if g.stepsRef = other.stepsRef then (g, h)
  else Graph.merge_different h g other

/-- C6: after `Graph::steps` has drained a graph, a subsequent `steps` call
through any handle sharing the same step storage returns the empty map: the
backing map was swapped for a fresh empty one by the first drain. -/
theorem claim_C6 (h : Heap) (g g' : GraphH)
    (hshare : g'.stepsRef = g.stepsRef) :
    (Graph.steps (Graph.steps h g).2 g').1 = [] := by
  simp [Graph.steps, Heap.setSteps, hshare]

/-- Heap for the C6 witness: every step storage holds one entry. -/
def c6h : Heap := ⟨fun _ => [(1, 5)], fun _ => ⟨[], []⟩⟩

/-- Witness for C6: two handles over step storage 0; the second drain
returns the empty map. -/
theorem claim_C6_witness :
    (Graph.steps (Graph.steps c6h ⟨0, 0⟩).2 ⟨0, 1⟩).1 = [] :=
  claim_C6 c6h ⟨0, 0⟩ ⟨0, 1⟩ rfl

/-- C10: `Graph::register` on a node id already mapped silently replaces
the previously registered step with the new one, leaves every other node
id's step unchanged, leaves every other step storage unchanged, and leaves
all pending checkpointing actions unchanged. -/
theorem claim_C10 (h : Heap) (g : GraphH) (id : Nat) (ops s₀ : StepBoxed)
    (hprev : hmGet (h.stepsH g.stepsRef) id = some s₀) :
    (Graph.register h g id ops).1 = g ∧
    hmGet ((Graph.register h g id ops).2.stepsH g.stepsRef) id = some ops ∧
    (∀ j, j ≠ id →
      hmGet ((Graph.register h g id ops).2.stepsH g.stepsRef) j =
        hmGet (h.stepsH g.stepsRef) j) ∧
    (∀ r, r ≠ g.stepsRef →
      (Graph.register h g id ops).2.stepsH r = h.stepsH r) ∧
    (Graph.register h g id ops).2.actionsH = h.actionsH := by
  refine ⟨rfl, ?_, ?_, ?_, rfl⟩
  · simp [Graph.register, Heap.setSteps, hmGet_insert_self]
  · intro j hj
    simp [Graph.register, Heap.setSteps, hmGet_insert_ne _ _ _ _ hj]
  · intro r hr
    simp [Graph.register, Heap.setSteps, hr]

/-- Heap for the C10 witness: step storage 0 maps node 1 to step 5. -/
def c10h : Heap := ⟨fun _ => [(1, 5)], fun _ => ⟨[], []⟩⟩

/-- Witness for C10: re-registering node 1 replaces its step by 9 and
changes nothing else. -/
theorem claim_C10_witness :
    (Graph.register c10h ⟨0, 0⟩ 1 9).1 = (⟨0, 0⟩ : GraphH) ∧
    hmGet ((Graph.register c10h ⟨0, 0⟩ 1 9).2.stepsH 0) 1 = some 9 ∧
    (∀ j, j ≠ 1 →
      hmGet ((Graph.register c10h ⟨0, 0⟩ 1 9).2.stepsH 0) j =
        hmGet (c10h.stepsH 0) j) ∧
    (∀ r, r ≠ 0 →
      (Graph.register c10h ⟨0, 0⟩ 1 9).2.stepsH r = c10h.stepsH r) ∧
    (Graph.register c10h ⟨0, 0⟩ 1 9).2.actionsH = c10h.actionsH :=
  claim_C10 c10h ⟨0, 0⟩ 1 9 5 rfl

/-- C4: merging two graphs with distinct underlying storages concatenates
the two sides' checkpointing actions within their respective main and
backup partitions — in one consistent orientation chosen by the size
comparison — so no action is dropped, no action moves between partitions,
and each side's registration order is preserved (hence the first-registered
action of a side for a given node stays before that side's later ones). -/
theorem claim_C4 (h : Heap) (g other : GraphH)
    (hsteps : g.stepsRef ≠ other.stepsRef)
    (hactions : g.actionsRef ≠ other.actionsRef) :
    ∃ selfFirst : Bool,
      ((Graph.merge h g other).2.actionsH g.actionsRef).main_actions =
        (if selfFirst then
          (h.actionsH g.actionsRef).main_actions ++
            (h.actionsH other.actionsRef).main_actions
         else
          (h.actionsH other.actionsRef).main_actions ++
            (h.actionsH g.actionsRef).main_actions) ∧
      ((Graph.merge h g other).2.actionsH g.actionsRef).backup_actions =
        (if selfFirst then
          (h.actionsH g.actionsRef).backup_actions ++
            (h.actionsH other.actionsRef).backup_actions
         else
          (h.actionsH other.actionsRef).backup_actions ++
            (h.actionsH g.actionsRef).backup_actions) := by
  by_cases hlen : (h.actionsH g.actionsRef).len >
      (h.actionsH other.actionsRef).len
  · refine ⟨true, ?_, ?_⟩ <;>
      simp [Graph.merge, hsteps, Graph.merge_different, Graph.steps,
        Graph.checkpointing_actions_own, Heap.setSteps, Heap.setActions,
        Ne.symm hactions, hactions, hlen, CheckpointingActions.extend]
  · refine ⟨false, ?_, ?_⟩ <;>
      simp [Graph.merge, hsteps, Graph.merge_different, Graph.steps,
        Graph.checkpointing_actions_own, Heap.setSteps, Heap.setActions,
        Ne.symm hactions, hactions, hlen, CheckpointingActions.extend]

/-- Heap for the C4 witness: distinct main/backup action lists in storages
0 and 1. -/
def c4h : Heap :=
  ⟨fun _ => [],
   fun r => if r = 0 then ⟨[⟨1, 10⟩], [⟨2, 20⟩]⟩ else ⟨[⟨3, 30⟩], []⟩⟩

/-- Witness for C4 at two concrete graphs over distinct storages. -/
theorem claim_C4_witness :
    ∃ selfFirst : Bool,
      ((Graph.merge c4h ⟨0, 0⟩ ⟨1, 1⟩).2.actionsH 0).main_actions =
        (if selfFirst then
          (c4h.actionsH 0).main_actions ++ (c4h.actionsH 1).main_actions
         else
          (c4h.actionsH 1).main_actions ++ (c4h.actionsH 0).main_actions) ∧
      ((Graph.merge c4h ⟨0, 0⟩ ⟨1, 1⟩).2.actionsH 0).backup_actions =
        (if selfFirst then
          (c4h.actionsH 0).backup_actions ++ (c4h.actionsH 1).backup_actions
         else
          (c4h.actionsH 1).backup_actions ++
            (c4h.actionsH 0).backup_actions) :=
  claim_C4 c4h ⟨0, 0⟩ ⟨1, 1⟩ (by decide) (by decide)

/-! ### Lemmas for C8 -/

/-- First-wins choice on optional lookups: the lookup result of an
append of maps. -/
def oor {α : Type} (a b : Option α) : Option α :=
  match a with
  | some v => some v
  | none => b

theorem oor_assoc {α : Type} (x y z : Option α) :
    oor (oor x y) z = oor x (oor y z) := by
  cases x <;> simp [oor]

theorem hmGet_append {α : Type} (m₁ m₂ : List (Nat × α)) (k : Nat) :
    hmGet (m₁ ++ m₂) k = oor (hmGet m₁ k) (hmGet m₂ k) := by
  induction m₁ with
  | nil => simp [hmGet, oor]
  | cons p t ih =>
    obtain ⟨k', v'⟩ := p
    by_cases hk : k' = k <;> simp [hmGet, hk, oor, ih]

theorem hmInsert_of_not_mem {α : Type} (m : List (Nat × α)) (k : Nat)
    (v : α) (h : k ∉ hmKeys m) : hmInsert m k v = m ++ [(k, v)] := by
  induction m with
  | nil => rfl
  | cons p t ih =>
    obtain ⟨k', v'⟩ := p
    simp only [hmKeys, List.map_cons, List.mem_cons] at h
    push_neg at h
    simp [hmInsert, Ne.symm h.1, ih h.2]

theorem hmExtend_eq_append {α : Type} (m₂ : List (Nat × α)) :
    ∀ m₁, (∀ k, k ∈ hmKeys m₂ → k ∉ hmKeys m₁) → (hmKeys m₂).Nodup →
    hmExtend m₁ m₂ = m₁ ++ m₂ := by
  induction m₂ with
  | nil => intro m₁ _ _; simp [hmExtend]
  | cons p t ih =>
    obtain ⟨k, v⟩ := p
    intro m₁ hdis hnd
    simp only [hmKeys, List.map_cons, List.nodup_cons] at hnd
    have h1 : hmExtend m₁ ((k, v) :: t) = hmExtend (hmInsert m₁ k v) t := rfl
    have hknotin : k ∉ hmKeys m₁ := hdis k (by simp [hmKeys])
    rw [h1, hmInsert_of_not_mem m₁ k v hknotin]
    have hdis' : ∀ k', k' ∈ hmKeys t → k' ∉ hmKeys (m₁ ++ [(k, v)]) := by
      intro k' hk'
      have ha : k' ∉ hmKeys m₁ := hdis k' (by
        simp only [hmKeys, List.map_cons, List.mem_cons]
        exact Or.inr hk')
      have hb : k' ≠ k := by
        intro he
        subst he
        exact hnd.1 hk'
      intro hc
      simp only [hmKeys, List.map_append, List.mem_append, List.map_cons,
        List.map_nil, List.mem_singleton] at hc
      rcases hc with hc | hc
      · exact ha hc
      · exact hb hc
    rw [ih (m₁ ++ [(k, v)]) hdis' hnd.2]
    simp

theorem hmGet_isSome_mem {α : Type} (m : List (Nat × α)) (k : Nat) (v : α)
    (h : hmGet m k = some v) : k ∈ hmKeys m := by
  induction m with
  | nil => cases h
  | cons p t ih =>
    obtain ⟨k', v'⟩ := p
    by_cases hk : k' = k
    · simp [hmKeys, hk]
    · simp only [hmGet, if_neg hk] at h
      simp [hmKeys]
      right
      simpa [hmKeys] using ih h

/-- The step-map half of `Graph::merge` on distinct, key-disjoint,
duplicate-free storages: the handle is `self`, the merged map looks up as
"self first, other second", its keys are the union, it stays
duplicate-free, and all other storages are untouched. -/
theorem merge_different_steps (h : Heap) (g other : GraphH)
    (hne : g.stepsRef ≠ other.stepsRef)
    (hdis : ∀ k, k ∈ hmKeys (h.stepsH g.stepsRef) →
      k ∉ hmKeys (h.stepsH other.stepsRef))
    (hnd₁ : (hmKeys (h.stepsH g.stepsRef)).Nodup)
    (hnd₂ : (hmKeys (h.stepsH other.stepsRef)).Nodup) :
    (Graph.merge h g other).1 = g ∧
    (∀ k, hmGet ((Graph.merge h g other).2.stepsH g.stepsRef) k =
      oor (hmGet (h.stepsH g.stepsRef) k)
        (hmGet (h.stepsH other.stepsRef) k)) ∧
    (hmKeys ((Graph.merge h g other).2.stepsH g.stepsRef)).Nodup ∧
    (∀ k, k ∈ hmKeys ((Graph.merge h g other).2.stepsH g.stepsRef) ↔
      k ∈ hmKeys (h.stepsH g.stepsRef) ∨
        k ∈ hmKeys (h.stepsH other.stepsRef)) ∧
    (∀ r, r ≠ g.stepsRef → r ≠ other.stepsRef →
      (Graph.merge h g other).2.stepsH r = h.stepsH r) := by
  have hres : (Graph.merge h g other).2.stepsH g.stepsRef =
      (if (h.stepsH g.stepsRef).length > (h.stepsH other.stepsRef).length
       then hmExtend (h.stepsH g.stepsRef) (h.stepsH other.stepsRef)
       else hmExtend (h.stepsH other.stepsRef) (h.stepsH g.stepsRef)) := by
    simp [Graph.merge, hne, Graph.merge_different, Graph.steps,
      Graph.checkpointing_actions_own, Heap.setSteps, Heap.setActions]
  have hcases : (Graph.merge h g other).2.stepsH g.stepsRef =
      h.stepsH g.stepsRef ++ h.stepsH other.stepsRef ∨
      (Graph.merge h g other).2.stepsH g.stepsRef =
      h.stepsH other.stepsRef ++ h.stepsH g.stepsRef := by
    rw [hres]
    split
    · left
      exact hmExtend_eq_append _ _ (fun k hk₂ hk₁ => hdis k hk₁ hk₂) hnd₂
    · right
      exact hmExtend_eq_append _ _ (fun k hk₁ hk₂ => hdis k hk₁ hk₂) hnd₁
  have hhandle : (Graph.merge h g other).1 = g := by
    simp [Graph.merge, hne, Graph.merge_different]
  refine ⟨hhandle, ?_, ?_, ?_, ?_⟩
  · intro k
    rcases hcases with hc | hc
    · rw [hc, hmGet_append]
    · rw [hc, hmGet_append]
      cases hA : hmGet (h.stepsH g.stepsRef) k with
      | none => cases hB : hmGet (h.stepsH other.stepsRef) k <;>
          simp [oor, hA, hB]
      | some v =>
        have hB : hmGet (h.stepsH other.stepsRef) k = none :=
          hmGet_not_mem _ _ (hdis k (hmGet_isSome_mem _ _ _ hA))
        simp [oor, hA, hB]
  · rcases hcases with hc | hc <;> rw [hc] <;>
      simp only [hmKeys, List.map_append] <;>
      refine List.Nodup.append ?_ ?_ ?_
    · exact hnd₁
    · exact hnd₂
    · intro k hk₁ hk₂
      exact hdis k hk₁ hk₂
    · exact hnd₂
    · exact hnd₁
    · intro k hk₂ hk₁
      exact hdis k hk₁ hk₂
  · intro k
    rcases hcases with hc | hc <;> rw [hc] <;>
      simp [hmKeys, List.mem_append] <;> tauto
  · intro r hr₁ hr₂
    simp [Graph.merge, hne, Graph.merge_different, Graph.steps,
      Graph.checkpointing_actions_own, Heap.setSteps, Heap.setActions,
      hr₁, hr₂]

/-- C8: for three graphs over pairwise distinct step storages holding
pairwise key-disjoint, duplicate-free step maps, merging A with B and then
with C yields the same node-to-step mapping as merging A with the result of
merging B with C. -/
theorem claim_C8 (h : Heap) (a b c : GraphH)
    (hab : a.stepsRef ≠ b.stepsRef) (hac : a.stepsRef ≠ c.stepsRef)
    (hbc : b.stepsRef ≠ c.stepsRef)
    (hndA : (hmKeys (h.stepsH a.stepsRef)).Nodup)
    (hndB : (hmKeys (h.stepsH b.stepsRef)).Nodup)
    (hndC : (hmKeys (h.stepsH c.stepsRef)).Nodup)
    (hdAB : ∀ k, k ∈ hmKeys (h.stepsH a.stepsRef) →
      k ∉ hmKeys (h.stepsH b.stepsRef))
    (hdAC : ∀ k, k ∈ hmKeys (h.stepsH a.stepsRef) →
      k ∉ hmKeys (h.stepsH c.stepsRef))
    (hdBC : ∀ k, k ∈ hmKeys (h.stepsH b.stepsRef) →
      k ∉ hmKeys (h.stepsH c.stepsRef)) :
    ∀ k,
      hmGet ((Graph.merge (Graph.merge h a b).2
        (Graph.merge h a b).1 c).2.stepsH a.stepsRef) k =
      hmGet ((Graph.merge (Graph.merge h b c).2
        a (Graph.merge h b c).1).2.stepsH a.stepsRef) k := by
  obtain ⟨hL1h, hL1get, hL1nd, hL1mem, hL1fr⟩ :=
    merge_different_steps h a b hab hdAB hndA hndB
  rw [hL1h]
  set H1 := (Graph.merge h a b).2 with hH1
  have hC1 : H1.stepsH c.stepsRef = h.stepsH c.stepsRef :=
    hL1fr c.stepsRef (Ne.symm hac) (Ne.symm hbc)
  have hdis2 : ∀ k, k ∈ hmKeys (H1.stepsH a.stepsRef) →
      k ∉ hmKeys (H1.stepsH c.stepsRef) := by
    intro k hk
    rw [hC1]
    rcases (hL1mem k).mp hk with hk | hk
    · exact hdAC k hk
    · exact hdBC k hk
  have hndC1 : (hmKeys (H1.stepsH c.stepsRef)).Nodup := by
    rw [hC1]
    exact hndC
  obtain ⟨hL2h, hL2get, hL2nd, hL2mem, hL2fr⟩ :=
    merge_different_steps H1 a c hac hdis2 hL1nd hndC1
  obtain ⟨hR1h, hR1get, hR1nd, hR1mem, hR1fr⟩ :=
    merge_different_steps h b c hbc hdBC hndB hndC
  rw [hR1h]
  set H2 := (Graph.merge h b c).2 with hH2
  have hA2 : H2.stepsH a.stepsRef = h.stepsH a.stepsRef :=
    hR1fr a.stepsRef hab hac
  have hdis3 : ∀ k, k ∈ hmKeys (H2.stepsH a.stepsRef) →
      k ∉ hmKeys (H2.stepsH b.stepsRef) := by
    intro k hk
    rw [hA2] at hk
    intro hk2
    rcases (hR1mem k).mp hk2 with hk2 | hk2
    · exact hdAB k hk hk2
    · exact hdAC k hk hk2
  have hndA2 : (hmKeys (H2.stepsH a.stepsRef)).Nodup := by
    rw [hA2]
    exact hndA
  obtain ⟨hR2h, hR2get, hR2nd, hR2mem, hR2fr⟩ :=
    merge_different_steps H2 a b hab hdis3 hndA2 hR1nd
  intro k
  rw [hL2get k, hR2get k, hC1, hA2, hL1get k, hR1get k, oor_assoc]

/-- Heap for the C8 witness: three step storages holding disjoint
single-entry maps. -/
def c8h : Heap :=
  ⟨fun r =>
    if r = 0 then [(1, 10)]
    else if r = 1 then [(2, 20)]
    else if r = 2 then [(3, 30)]
    else [],
   fun _ => ⟨[], []⟩⟩

/-- Witness for C8 at three concrete graphs, compared at node id 1. -/
theorem claim_C8_witness :
    hmGet ((Graph.merge (Graph.merge c8h ⟨0, 0⟩ ⟨1, 1⟩).2
      (Graph.merge c8h ⟨0, 0⟩ ⟨1, 1⟩).1 ⟨2, 2⟩).2.stepsH 0) 1 =
    hmGet ((Graph.merge (Graph.merge c8h ⟨1, 1⟩ ⟨2, 2⟩).2
      ⟨0, 0⟩ (Graph.merge c8h ⟨1, 1⟩ ⟨2, 2⟩).1).2.stepsH 0) 1 :=
  claim_C8 c8h ⟨0, 0⟩ ⟨1, 1⟩ ⟨2, 2⟩ (by decide) (by decide) (by decide)
    (by decide) (by decide) (by decide) (by decide) (by decide) (by decide) 1
